import Mathlib

/-!
Verification of the streaming spectral tracker implemented in
`signal_analyzer.py`.  The analyzer is embedded shallowly: Python floats
become real numbers, complex demodulation uses `ℂ`, the insertion-ordered
Python dictionary keyed by track frequency becomes an association list
`List (ℝ × Track)` with dictionary-style lookup, insert and pop, and the
block/driver loops become folds.
-/

namespace SignalAnalyzer

noncomputable section

/-- Configuration constants, read once in `SignalAnalyzer.__init__`. -/
structure Config where
  FS : ℝ
  BLOCK : ℕ
  BAND_MIN : ℝ
  BAND_MAX : ℝ
  PEAK_THRESH : ℝ
  MAX_TRACKS : ℕ
  TIMEOUT_BLOCKS : ℕ
  SMOOTH : ℕ
  HIST_LEN : ℕ

/-- Matching tolerance, `self.TOL_HZ = self.FS / self.BLOCK`. -/
def Config.TOL (cfg : Config) : ℝ := cfg.FS / cfg.BLOCK

/-- State of one track, the per-key dictionary value built in `_ensure_track`. -/
structure Track where
  f0 : ℝ
  prev_phase : Option ℝ
  finst_hist : List ℝ
  mag_hist : List ℝ
  history : List ℝ
  miss_count : ℕ
  seen : Bool

/-- The track bank `self.tracks`: a Python dict keyed by the track's own
frequency, in insertion order. -/
abbrev Bank := List (ℝ × Track)

/-- Dictionary lookup `self.tracks[k]`. -/
def dictGet : Bank → ℝ → Option Track
  | [], _ => none
  | p :: rest, k => if p.1 = k then some p.2 else dictGet rest k

/-- Dictionary assignment `self.tracks[k] = v`: replace in place when the key
exists, append otherwise (Python insertion-order semantics). -/
def dictInsert : Bank → ℝ → Track → Bank
  | [], k, v => [(k, v)]
  | p :: rest, k, v => if p.1 = k then (k, v) :: rest else p :: dictInsert rest k v

/-- Dictionary removal `self.tracks.pop(k)`. -/
def dictPop : Bank → ℝ → Bank
  | [], _ => []
  | p :: rest, k => if p.1 = k then rest else p :: dictPop rest k

/-- Append on a `collections.deque(maxlen=m)`: the oldest entries drop off
the left once the capacity is exceeded. -/
def dequeAppend (maxlen : ℕ) (l : List ℝ) (v : ℝ) : List ℝ :=
  let l2 := l ++ [v]
  if maxlen < l2.length then l2.drop (l2.length - maxlen) else l2

/-- The fresh track dict created by `_ensure_track`. -/
def mk_track (freq : ℝ) : Track :=
  { f0 := freq, prev_phase := none, finst_hist := [], mag_hist := [],
    history := [], miss_count := 0, seen := false }

/-- Python float modulo: `x % y = x - y * floor(x / y)`. -/
def fmod (x y : ℝ) : ℝ := x - y * (⌊x / y⌋ : ℤ)

/-- Line 47: `(a + np.pi) % (2*np.pi) - np.pi`. -/
def principal_angle (a : ℝ) : ℝ := fmod (a + Real.pi) (2 * Real.pi) - Real.pi

/-- `np.mean` of a 1-d array. -/
def mean (l : List ℝ) : ℝ := l.sum / l.length

/-- `np.mean(x**2)`, the silence-guard statistic of line 84. -/
def mean_sq (l : List ℝ) : ℝ := (l.map (fun v => v ^ 2)).sum / l.length

/-- The real phase angle `2*pi*f0*((n0+k)/fs)` of oscillator sample `k`. -/
def osc_angle (fs f0 : ℝ) (n0 k : ℕ) : ℝ :=
  2 * Real.pi * f0 * (((n0 + k : ℕ) : ℝ) / fs)

/-- Line 109: local oscillator sample `exp(-1j*2*pi*f0*((n0+k)/fs))`. -/
def local_osc (fs f0 : ℝ) (n0 k : ℕ) : ℂ :=
  Complex.exp (-(osc_angle fs f0 n0 k : ℂ) * Complex.I)

/-- Line 110: `z = np.vdot(lo, x)`, i.e. the sum of `conj(lo[k]) * x[k]`. -/
def demod_z (fs f0 : ℝ) (n0 : ℕ) (x : List ℝ) : ℂ :=
  ∑ k ∈ Finset.range x.length, (starRingEnd ℂ) (local_osc fs f0 n0 k) * (x.getD k 0 : ℂ)

/-- Line 111: `phase = np.angle(z)` (principal value in `(-pi, pi]`). -/
def demod_phase (fs f0 : ℝ) (n0 : ℕ) (x : List ℝ) : ℝ := (demod_z fs f0 n0 x).arg

/-- `_match_track`: nearest live key, accepted when within `TOL_HZ`.  The
fold keeps the first key attaining the minimum distance, as the Python
`<` comparison over dict iteration order does. -/
def match_track (cfg : Config) (bank : Bank) (f : ℝ) : Option ℝ :=
  match bank.foldl (fun best p =>
      match best with
      | none => some (p.1, |p.1 - f|)
      | some q => if |p.1 - f| < q.2 then some (p.1, |p.1 - f|) else some q) none with
  | none => none
  | some q => if q.2 ≤ cfg.TOL then some q.1 else none

/-- `_ensure_track`: returns the key (or `none` on capacity exhaustion)
together with the possibly extended bank. -/
def ensure_track (cfg : Config) (bank : Bank) (freq : ℝ) : Option ℝ × Bank :=
  if freq ∈ bank.map Prod.fst then (some freq, bank)
  else if cfg.MAX_TRACKS ≤ bank.length then (none, bank)
  else (some freq, bank ++ [(freq, mk_track freq)])

/-- Lines 105-119: EMA-update the center frequency, demodulate the block at
the updated frequency, convert the phase step to a frequency deviation and
record the instantaneous-frequency estimate. -/
def track_update (cfg : Config) (n0 : ℕ) (x : List ℝ) (st : Track) (f : ℝ) : Track :=
  let f0n := 0.9 * st.f0 + 0.1 * f
  let phase := demod_phase cfg.FS f0n n0 x
  let dphi : ℝ :=
    match st.prev_phase with
    | none => 0
    | some p => principal_angle (phase - p)
  let fdev := dphi / (2 * Real.pi) / ((x.length : ℝ) / cfg.FS)
  { st with
    f0 := f0n
    prev_phase := some phase
    finst_hist := dequeAppend cfg.SMOOTH st.finst_hist (f0n + fdev)
    seen := true }

/-- Lines 99-120, the body of the per-peak loop: match or spawn, pop the old
key when it changes, update the track and store it under its new key. -/
def process_peak (cfg : Config) (n0 : ℕ) (x : List ℝ) (bank : Bank) (f : ℝ) : Bank :=
  match match_track cfg bank f with
  | some m =>
    match dictGet bank m with
    | none => bank
    | some st =>
      dictInsert (if m = f then bank else dictPop bank m) (0.9 * st.f0 + 0.1 * f)
        (track_update cfg n0 x st f)
  | none =>
    match ensure_track cfg bank f with
    | (none, bank1) => bank1
    | (some m, bank1) =>
      match dictGet bank1 m with
      | none => bank1
      | some st =>
        dictInsert (if m = f then bank1 else dictPop bank1 m) (0.9 * st.f0 + 0.1 * f)
          (track_update cfg n0 x st f)

/-- The per-track mutation of `_handle_timeouts`: seen tracks reset
`miss_count`, unseen tracks increment it and (when `seen_update`) append a
zero to the secondary `history` deque. -/
def sweep_one (cfg : Config) (su : Bool) (p : ℝ × Track) : ℝ × Track :=
  if p.2.seen then (p.1, { p.2 with miss_count := 0 })
  else (p.1, { p.2 with
    miss_count := p.2.miss_count + 1
    history := if su then dequeAppend cfg.HIST_LEN p.2.history 0 else p.2.history })

/-- `_handle_timeouts`: mutate every track, then drop those whose updated
`miss_count` reached `TIMEOUT_BLOCKS`. -/
def handle_timeouts (cfg : Config) (su : Bool) (bank : Bank) : Bank :=
  (bank.map (sweep_one cfg su)).filter
    (fun p => p.2.seen || decide (p.2.miss_count < cfg.TIMEOUT_BLOCKS))

/-- Line 97: mark every track unseen at the start of the block. -/
def reset_seen (bank : Bank) : Bank :=
  bank.map (fun p => (p.1, { p.2 with seen := false }))

/-- Lines 127-135: the per-track Pearson correlation of the instantaneous
frequency history against its index sequence, `none` when the history is
shorter than 3 or the denominator is not above `1e-9`.  The numpy vector
operations become sums over `Finset.range`. -/
def rho_of_hist (l : List ℝ) : Option ℝ :=
  if 3 ≤ l.length then
    let n := l.length
    let xbar := (∑ i ∈ Finset.range n, l.getD i 0) / n
    let tbar := (∑ i ∈ Finset.range n, (i : ℝ)) / n
    let sxx := ∑ i ∈ Finset.range n, (l.getD i 0 - xbar) ^ 2
    let stt := ∑ i ∈ Finset.range n, ((i : ℝ) - tbar) ^ 2
    let sxt := ∑ i ∈ Finset.range n, (l.getD i 0 - xbar) * ((i : ℝ) - tbar)
    let denom := Real.sqrt (sxx * stt)
    if 1e-9 < denom then some (sxt / denom) else none
  else none

/-- Lines 125-136: collect the correlation of every qualifying track, in
bank (dict) order. -/
def rho_block (bank : Bank) : List ℝ :=
  bank.filterMap (fun p => rho_of_hist p.2.finst_hist)

/-- `np.fft.rfftfreq(BLOCK, 1/FS)`: center frequency of bin `j`. -/
def bins_f (cfg : Config) (j : ℕ) : ℝ := j * cfg.FS / cfg.BLOCK

/-- `self.band_bins`: the one-sided bins inside `[BAND_MIN, BAND_MAX]`. -/
def band_bins (cfg : Config) : List ℕ :=
  (List.range (cfg.BLOCK / 2 + 1)).filter
    (fun j => decide (cfg.BAND_MIN ≤ bins_f cfg j) && decide (bins_f cfg j ≤ cfg.BAND_MAX))

/-- `np.hanning(N)` sample `k`. -/
def hann_w (N k : ℕ) : ℝ := 0.5 - 0.5 * Real.cos (2 * Real.pi * k / ((N : ℝ) - 1))

/-- Magnitude of bin `j` of the windowed DFT, `abs(np.fft.rfft(x * win))[j]`. -/
def dft_mag (cfg : Config) (x : List ℝ) (j : ℕ) : ℝ :=
  Complex.abs (∑ k ∈ Finset.range x.length,
    ((x.getD k 0 * hann_w x.length k : ℝ) : ℂ) *
      Complex.exp (-(2 * Real.pi * (j : ℝ) * (k : ℝ) / (x.length : ℝ)) * Complex.I))

/-- `np.median` of a 1-d array: middle of the sorted data, averaging the two
middle entries for even length. -/
def median (l : List ℝ) : ℝ :=
  let s := List.insertionSort (fun a b : ℝ => a ≤ b) l
  if l.length = 0 then 0
  else if l.length % 2 = 1 then s.getD (l.length / 2) 0
  else (s.getD (l.length / 2 - 1) 0 + s.getD (l.length / 2) 0) / 2

/-- Lines 86-95: Hann window, one-sided magnitude spectrum restricted to the
band, median noise floor plus `1e-12`, bins whose normalized magnitude
exceeds `PEAK_THRESH`, mapped to their center frequencies. -/
def detect_peaks (cfg : Config) (x : List ℝ) : List ℝ :=
  let noise_floor := median ((band_bins cfg).map (dft_mag cfg x)) + 1e-12
  ((band_bins cfg).filter
    (fun j => decide (cfg.PEAK_THRESH < dft_mag cfg x j / noise_floor))).map (bins_f cfg)

/-- Lines 97-136 of `_process_block`, parameterized by the peak list the
spectral front end presented: reset the seen flags, fold the per-peak loop,
run the timeout sweep, and compute the block's correlation list. -/
def process_block_with (cfg : Config) (bank : Bank) (peaks : List ℝ) (n0 : ℕ)
    (x : List ℝ) : Bank × List ℝ :=
  let b1 := peaks.foldl (process_peak cfg n0 x) (reset_seen bank)
  let b2 := handle_timeouts cfg true b1
  (b2, rho_block b2)

/-- `_process_block`: the silence guard of line 84 returns an empty peak
list before any state is touched; otherwise the detected peaks are
processed. -/
def process_block (cfg : Config) (bank : Bank) (x : List ℝ) (n0 : ℕ) : Bank × List ℝ :=
  if mean_sq x < 1e-10 then (bank, [])
  else process_block_with cfg bank (detect_peaks cfg x) n0 x

/-- Python `range(0, stop, h)` over naturals. -/
def offsets_list (stop h : ℕ) : List ℕ :=
  (List.range ((stop + h - 1) / h)).map (fun k => k * h)

/-- The block schedule of lines 150-157: the offsets visited by
`range(0, len(audio) - BLOCK, BLOCK // 2)` paired with the `n0` value the
loop supplies to `_process_block`, which starts at 0 and advances by
`len(block)` after every block. -/
def schedule (cfg : Config) (len : ℕ) : List (ℕ × ℕ) :=
  ((offsets_list (len - cfg.BLOCK) (cfg.BLOCK / 2)).foldl
    (fun acc i => (acc.1 ++ [(i, acc.2)], acc.2 + min cfg.BLOCK (len - i))) ([], 0)).1

/-- One iteration of the driver loop: slice the block, process it, and
append the mean of the block's correlation list when it is nonempty. -/
def file_step (cfg : Config) (audio : List ℝ) (acc : Bank × List ℝ) (p : ℕ × ℕ) :
    Bank × List ℝ :=
  let block := (audio.drop p.1).take cfg.BLOCK
  let r := process_block cfg acc.1 block p.2
  (r.1, if r.2.isEmpty then acc.2 else acc.2 ++ [mean r.2])

/-- The per-file list `all_rho_values`. -/
def block_values (cfg : Config) (audio : List ℝ) : List ℝ :=
  ((schedule cfg audio.length).foldl (file_step cfg audio) ([], [])).2

/-- `process_file` on an audio buffer: line 148 resets `self.tracks`, so the
incoming bank `tracks0` is discarded; the driver folds over the block
schedule and reports `mean(abs(all_rho_values))`, or `0.0` when no block
produced a value.  The final bank is returned alongside the scalar. -/
def process_file (cfg : Config) (tracks0 : Bank) (audio : List ℝ) : ℝ × Bank :=
  let out := (schedule cfg audio.length).foldl (file_step cfg audio) ([], [])
  (if out.2.isEmpty then 0 else mean (out.2.map (fun v => |v|)), out.1)

/-- Modelled from the spec: per file, "collect all block-level values, then
report `mean(|blockValue|)`"; `0.0` if no block qualified. -/
def aggregate_file (bvs : List ℝ) : ℝ :=
  if bvs = [] then 0 else mean (bvs.map (fun v => |v|))

/-- Modelled from the spec: mean of the index sequence `tau = 0..n-1`. -/
def tau_bar (n : ℕ) : ℝ := (∑ i ∈ Finset.range n, (i : ℝ)) / n

/-- Modelled from the spec: the numerator `sum (x_i - xbar) (tau_i - taubar)`
of the Pearson coefficient. -/
def pearson_num (l : List ℝ) : ℝ :=
  ∑ i ∈ Finset.range l.length, (l.getD i 0 - mean l) * ((i : ℝ) - tau_bar l.length)

/-- Modelled from the spec: the denominator
`sqrt(sum (x_i - xbar)^2 * sum (tau_i - taubar)^2)`. -/
def pearson_denom (l : List ℝ) : ℝ :=
  Real.sqrt ((∑ i ∈ Finset.range l.length, (l.getD i 0 - mean l) ^ 2) *
    (∑ i ∈ Finset.range l.length, ((i : ℝ) - tau_bar l.length) ^ 2))

/-- Well-formedness of a bank: distinct keys, each track keyed by its own
center frequency, and the capacity bound.  This holds for the empty bank a
file starts from and is preserved by every block. -/
def WFBank (cfg : Config) (bank : Bank) : Prop :=
  (bank.map Prod.fst).Nodup ∧ (∀ p ∈ bank, p.2.f0 = p.1) ∧
    bank.length ≤ cfg.MAX_TRACKS

/-- The default configuration of `__init__`. -/
def cfg_default : Config :=
  { FS := 48000, BLOCK := 4096, BAND_MIN := 500, BAND_MAX := 18000,
    PEAK_THRESH := 6, MAX_TRACKS := 10, TIMEOUT_BLOCKS := 20, SMOOTH := 8,
    HIST_LEN := 50 }

/-- Tiny configuration used for concrete evaluations around the phase
estimator: one-sample blocks at 4 Hz, tolerance `4/1 = 4` Hz. -/
def cfg1 : Config := { cfg_default with FS := 4, BLOCK := 1 }

/-- Configuration with a one-block timeout. -/
def cfg2 : Config := { cfg_default with TIMEOUT_BLOCKS := 1 }

/-- Configuration with a single-track capacity and tolerance `4/4 = 1` Hz. -/
def cfg4 : Config := { cfg_default with FS := 4, BLOCK := 4, MAX_TRACKS := 1 }

/-- Configuration with four-sample blocks, hop 2. -/
def cfg5 : Config := { cfg_default with BLOCK := 4 }

/-- A bank holding one fresh track at 0 Hz. -/
def bank1 : Bank := [((0 : ℝ), mk_track 0)]

/-- A bank holding one fresh track at 100 Hz. -/
def bank2 : Bank := [((100 : ℝ), mk_track 100)]

lemma fmod_eq_mul_fract {y : ℝ} (x : ℝ) (hy : y ≠ 0) :
    fmod x y = y * Int.fract (x / y) := by
  unfold fmod Int.fract
  field_simp

lemma fmod_nonneg {y : ℝ} (x : ℝ) (hy : 0 < y) : 0 ≤ fmod x y := by
  rw [fmod_eq_mul_fract x hy.ne']
  exact mul_nonneg hy.le (Int.fract_nonneg _)

lemma fmod_lt {y : ℝ} (x : ℝ) (hy : 0 < y) : fmod x y < y := by
  rw [fmod_eq_mul_fract x hy.ne']
  calc y * Int.fract (x / y) < y * 1 := by
        exact (mul_lt_mul_left hy).mpr (Int.fract_lt_one _)
    _ = y := mul_one y

/-- C7 (amended): the wrapping helper computes `((a + pi) mod 2 pi) - pi` with
the Python nonnegative float modulo, and its value lies in the half-open
interval `[-pi, pi)` — closed on the left and open on the right, not the
other way around as the spec states. -/
theorem c7_principal_angle (a : ℝ) :
    principal_angle a =
        ((a + Real.pi) - 2 * Real.pi * (⌊(a + Real.pi) / (2 * Real.pi)⌋ : ℤ)) - Real.pi ∧
      -Real.pi ≤ principal_angle a ∧ principal_angle a < Real.pi := by
  have h2pi : (0 : ℝ) < 2 * Real.pi := by positivity
  refine ⟨rfl, ?_, ?_⟩
  · have := fmod_nonneg (a + Real.pi) h2pi
    unfold principal_angle
    linarith
  · have := fmod_lt (a + Real.pi) h2pi
    unfold principal_angle
    linarith

/-- C7 counterexample: an input congruent to `pi` maps to `-pi`, which is
outside the interval `(-pi, pi]` claimed by the spec. -/
theorem c7_counterexample :
    principal_angle Real.pi = -Real.pi ∧
      principal_angle Real.pi ∉ Set.Ioc (-Real.pi) Real.pi := by
  have hpi : (0 : ℝ) < Real.pi := Real.pi_pos
  have hdiv : (Real.pi + Real.pi) / (2 * Real.pi) = 1 := by
    field_simp
    ring
  have hfmod : fmod (Real.pi + Real.pi) (2 * Real.pi) = 0 := by
    unfold fmod
    rw [hdiv]
    norm_num [Int.floor_one]
    ring
  have hval : principal_angle Real.pi = -Real.pi := by
    unfold principal_angle
    rw [hfmod]
    ring
  refine ⟨hval, ?_⟩
  rw [hval]
  simp [Set.mem_Ioc]

/-- C9: the result of a file analysis does not depend on the track bank left
over from previous files, because `process_file` resets the bank to empty
before processing; only the immutable configuration is shared. -/
theorem c9_file_independence (cfg : Config) (b1 b2 : Bank) (audio : List ℝ) :
    process_file cfg b1 audio = process_file cfg b2 audio := rfl

lemma mem_offsets_list {stop h i : ℕ} (hh : 0 < h) :
    i ∈ offsets_list stop h ↔ (∃ k, i = k * h) ∧ i < stop := by
  unfold offsets_list
  simp only [List.mem_map, List.mem_range]
  constructor
  · rintro ⟨k, hk, rfl⟩
    refine ⟨⟨k, rfl⟩, ?_⟩
    rw [Nat.lt_iff_add_one_le, Nat.le_div_iff_mul_le hh, add_one_mul] at hk
    have hkh : k * h + h ≤ stop + h - 1 := hk
    generalize k * h = m at hkh ⊢
    omega
  · rintro ⟨⟨k, rfl⟩, hlt⟩
    refine ⟨k, ?_, rfl⟩
    rw [Nat.lt_iff_add_one_le, Nat.le_div_iff_mul_le hh, add_one_mul]
    generalize k * h = m at hlt ⊢
    omega

lemma fold_trace (g : ℕ → ℕ) (B : ℕ) :
    ∀ (offs : List ℕ) (l0 : List (ℕ × ℕ)) (s : ℕ), (∀ i ∈ offs, g i = B) →
      (offs.foldl (fun acc i => (acc.1 ++ [(i, acc.2)], acc.2 + g i)) (l0, s)).1
        = l0 ++ (List.range offs.length).map (fun k => (offs.getD k 0, s + k * B))
  | [], l0, s, _ => by simp
  | i :: rest, l0, s, H => by
    have hi : g i = B := H i (List.mem_cons_self i rest)
    have IH := fold_trace g B rest (l0 ++ [(i, s)]) (s + g i)
      (fun j hj => H j (List.mem_cons_of_mem _ hj))
    simp only [List.foldl_cons]
    rw [IH, hi, List.append_assoc, List.length_cons, List.range_succ_eq_map]
    congr 1
    simp only [List.map_cons, List.map_map, List.singleton_append, List.getD_cons_zero]
    congr 1
    · simp
    · refine List.map_congr_left (fun k _ => ?_)
      simp only [Function.comp_apply, List.getD_cons_succ]
      congr 1
      rw [Nat.succ_mul]
      ring

lemma schedule_h0 (cfg : Config) (L : ℕ) (hh : cfg.BLOCK / 2 = 0) :
    schedule cfg L = [] := by
  unfold schedule offsets_list
  rw [hh]
  simp

lemma schedule_eq (cfg : Config) (L : ℕ) (hh : 0 < cfg.BLOCK / 2) :
    schedule cfg L =
      (List.range (offsets_list (L - cfg.BLOCK) (cfg.BLOCK / 2)).length).map
        (fun k => ((offsets_list (L - cfg.BLOCK) (cfg.BLOCK / 2)).getD k 0, k * cfg.BLOCK)) := by
  unfold schedule
  have H : ∀ i ∈ offsets_list (L - cfg.BLOCK) (cfg.BLOCK / 2),
      min cfg.BLOCK (L - i) = cfg.BLOCK := by
    intro i hi
    rcases (mem_offsets_list hh).mp hi with ⟨_, hlt⟩
    omega
  rw [fold_trace (fun i => min cfg.BLOCK (L - i)) cfg.BLOCK _ [] 0 H]
  simp

lemma getD_range_map {α : Type} (l : List α) (d : α) :
    (List.range l.length).map (fun k => l.getD k d) = l := by
  induction l with
  | nil => simp
  | cons a t ih =>
    rw [List.length_cons, List.range_succ_eq_map]
    simp only [List.map_cons, List.map_map, List.getD_cons_zero]
    congr 1

lemma offsets_getD {stop h k : ℕ} (hk : k < (offsets_list stop h).length) :
    (offsets_list stop h).getD k 0 = k * h := by
  unfold offsets_list at hk ⊢
  rw [List.length_map, List.length_range] at hk
  rw [List.getD_eq_getElem?_getD, List.getElem?_map, List.getElem?_range hk]
  rfl

/-- C2 (amended): the driver advances its `n0` accumulator by the full block
length `BLOCK` on every processed block, so the index supplied to the k-th
block is `k * BLOCK`, even though the k-th block actually starts at sample
`k * (BLOCK / 2)` because of the 50% hop. -/
theorem c2_block_start_index (cfg : Config) (L k : ℕ) (p : ℕ × ℕ)
    (h : (schedule cfg L)[k]? = some p) :
    p = (k * (cfg.BLOCK / 2), k * cfg.BLOCK) := by
  rcases Nat.eq_zero_or_pos (cfg.BLOCK / 2) with hh | hh
  · rw [schedule_h0 cfg L hh] at h
    simp at h
  · rw [schedule_eq cfg L hh, List.getElem?_map] at h
    have hk : k < (offsets_list (L - cfg.BLOCK) (cfg.BLOCK / 2)).length := by
      by_contra hk
      push_neg at hk
      rw [List.getElem?_eq_none (by simpa using hk)] at h
      simp at h
    rw [List.getElem?_range hk] at h
    simp only [Option.map_some', Option.some.injEq] at h
    rw [← h, offsets_getD hk]

/-- C2 witness: in a 9-sample buffer with `BLOCK = 4`, the second processed
block (k = 1) starts at offset 2 and is handed `n0 = 4`. -/
theorem c2_block_start_index_witness :
    ((2 : ℕ), (4 : ℕ)) = (1 * (cfg5.BLOCK / 2), 1 * cfg5.BLOCK) :=
  c2_block_start_index cfg5 9 1 (2, 4) (by decide)

/-- C2 counterexample: the second processed block of a 9-sample buffer with
`BLOCK = 4` receives `n0 = 4`, not `1 * (BLOCK / 2) = 2` as the claim
states. -/
theorem c2_counterexample :
    ((schedule cfg5 9)[1]?).map Prod.snd = some 4 ∧ (4 : ℕ) ≠ 1 * (cfg5.BLOCK / 2) := by
  decide

lemma schedule_fst (cfg : Config) (L : ℕ) (hh : 0 < cfg.BLOCK / 2) :
    (schedule cfg L).map Prod.fst = offsets_list (L - cfg.BLOCK) (cfg.BLOCK / 2) := by
  rw [schedule_eq cfg L hh, List.map_map]
  exact getD_range_map _ 0

/-- C3 (amended): the driver processes the window at offset `i` exactly when
`i` is a multiple of the hop `BLOCK / 2` and `i + BLOCK < L` strictly; a
final full block ending exactly at sample `L` is dropped together with any
partial block. -/
theorem c3_window_offsets (cfg : Config) (L i : ℕ) (hB : 2 ≤ cfg.BLOCK) :
    i ∈ (schedule cfg L).map Prod.fst ↔
      (∃ k, i = k * (cfg.BLOCK / 2)) ∧ i + cfg.BLOCK < L := by
  have hh : 0 < cfg.BLOCK / 2 := by omega
  rw [schedule_fst cfg L hh, mem_offsets_list hh]
  exact and_congr_right (fun _ => by omega)

/-- C3 witness: offset 2 of a 9-sample buffer with `BLOCK = 4` is processed. -/
theorem c3_window_offsets_witness : (2 : ℕ) ∈ (schedule cfg5 9).map Prod.fst :=
  (c3_window_offsets cfg5 9 2 (by decide)).mpr ⟨⟨1, by decide⟩, by decide⟩

/-- C3 counterexample: for a buffer of exactly `BLOCK = 4` samples the full
window at offset 0 ends exactly at the end of the buffer (`0 + BLOCK ≤ L`),
yet the driver processes no block at all. -/
theorem c3_counterexample :
    (0 : ℕ) ∉ (schedule cfg5 4).map Prod.fst ∧ 0 + cfg5.BLOCK ≤ 4 := by
  decide

lemma dictGet_none (bank : Bank) (k : ℝ) (h : k ∉ bank.map Prod.fst) :
    dictGet bank k = none := by
  induction bank with
  | nil => rfl
  | cons p rest ih =>
    simp only [List.map_cons, List.mem_cons, not_or] at h
    simp only [dictGet]
    rw [if_neg (fun hh => h.1 hh.symm)]
    exact ih h.2

lemma sweep_one_fst (cfg : Config) (su : Bool) (p : ℝ × Track) :
    (sweep_one cfg su p).1 = p.1 := by
  unfold sweep_one
  split <;> rfl

lemma keys_handle_timeouts {cfg : Config} {su : Bool} {bank : Bank} {k : ℝ}
    (hk : k ∈ (handle_timeouts cfg su bank).map Prod.fst) : k ∈ bank.map Prod.fst := by
  unfold handle_timeouts at hk
  rcases List.mem_map.mp hk with ⟨p, hp, rfl⟩
  rcases List.mem_map.mp (List.mem_of_mem_filter hp) with ⟨q, hq, rfl⟩
  rw [sweep_one_fst]
  exact List.mem_map.mpr ⟨q, hq, rfl⟩

lemma dictGet_handle_timeouts (cfg : Config) (su : Bool) :
    ∀ (bank : Bank) (k : ℝ) (st : Track), (bank.map Prod.fst).Nodup →
      dictGet bank k = some st →
      dictGet (handle_timeouts cfg su bank) k =
        if (sweep_one cfg su (k, st)).2.seen
            || decide ((sweep_one cfg su (k, st)).2.miss_count < cfg.TIMEOUT_BLOCKS)
        then some (sweep_one cfg su (k, st)).2 else none := by
  intro bank
  induction bank with
  | nil => intro k st _ hget; cases hget
  | cons p rest ih =>
    obtain ⟨k0, t0⟩ := p
    intro k st hnd hget
    simp only [List.map_cons, List.nodup_cons] at hnd
    by_cases hp : k0 = k
    · subst hp
      have hst : t0 = st := by
        simpa [dictGet] using hget
      subst hst
      have hnone : dictGet (handle_timeouts cfg su rest) k0 = none :=
        dictGet_none _ _ (fun hmem => hnd.1 (keys_handle_timeouts hmem))
      show dictGet ((List.map (sweep_one cfg su) ((k0, t0) :: rest)).filter _) k0 = _
      rw [List.map_cons]
      by_cases hcond : ((sweep_one cfg su (k0, t0)).2.seen
          || decide ((sweep_one cfg su (k0, t0)).2.miss_count < cfg.TIMEOUT_BLOCKS)) = true
      · simp only [List.filter_cons]
        rw [if_pos hcond]
        simp [dictGet, sweep_one_fst]
        simpa using hcond
      · simp only [List.filter_cons]
        rw [if_neg hcond, if_neg hcond]
        exact hnone
    · have hget2 : dictGet rest k = some st := by
        simpa [dictGet, hp] using hget
      have IH := ih k st hnd.2 hget2
      show dictGet ((List.map (sweep_one cfg su) ((k0, t0) :: rest)).filter _) k = _
      rw [List.map_cons]
      by_cases hcond : ((sweep_one cfg su (k0, t0)).2.seen
          || decide ((sweep_one cfg su (k0, t0)).2.miss_count < cfg.TIMEOUT_BLOCKS)) = true
      · simp only [List.filter_cons]
        rw [if_pos hcond]
        simp only [dictGet, sweep_one_fst]
        rw [if_neg hp]
        exact IH
      · simp only [List.filter_cons]
        rw [if_neg hcond]
        exact IH

/-- C5 (amended): blocks rejected by the silence guard leave the bank
completely untouched and do not advance any `missCount`; in a non-silent
block's sweep an unseen track's `missCount` is incremented and the track is
evicted exactly when the incremented count reaches `TIMEOUT_BLOCKS`, while a
seen track has its `missCount` reset to 0 and survives.  So eviction happens
after `TIMEOUT_BLOCKS` consecutive peak-free *non-silent* blocks, not after
`TIMEOUT_BLOCKS` blocks of any kind.  Removal is permanent: the evicted
entry is gone from the bank (its lookup is `none`), and a frequency absent
from the bank is only ever (re)admitted by spawning the fresh track
`mk_track f`, whose instantaneous-frequency history, secondary history,
miss count and previous phase are all empty — no resurrection with
preserved history. -/
theorem c5_timeout_sweep (cfg : Config) (bank : Bank) (x : List ℝ) (n0 : ℕ)
    (k : ℝ) (st : Track)
    (hnd : (bank.map Prod.fst).Nodup) (hget : dictGet bank k = some st) :
    (mean_sq x < 1e-10 → process_block cfg bank x n0 = (bank, [])) ∧
    (st.seen = false →
      (dictGet (handle_timeouts cfg true bank) k = none ↔
        cfg.TIMEOUT_BLOCKS ≤ st.miss_count + 1)) ∧
    (st.seen = true →
      dictGet (handle_timeouts cfg true bank) k = some { st with miss_count := 0 }) ∧
    (∀ (bank2 : Bank) (f : ℝ), f ∉ bank2.map Prod.fst →
      bank2.length < cfg.MAX_TRACKS →
      ensure_track cfg bank2 f = (some f, bank2 ++ [(f, mk_track f)]) ∧
      (mk_track f).finst_hist = [] ∧ (mk_track f).history = [] ∧
      (mk_track f).miss_count = 0 ∧ (mk_track f).prev_phase = none) := by
  refine ⟨fun hs => ?_, fun hseen => ?_, fun hseen => ?_,
    fun bank2 f hmem hlt => ⟨?_, rfl, rfl, rfl, rfl⟩⟩
  · unfold process_block
    rw [if_pos hs]
  · rw [dictGet_handle_timeouts cfg true bank k st hnd hget]
    simp only [sweep_one, hseen]
    by_cases hc : st.miss_count + 1 < cfg.TIMEOUT_BLOCKS <;> simp [hc] <;> omega
  · rw [dictGet_handle_timeouts cfg true bank k st hnd hget]
    simp [sweep_one, hseen]
  · unfold ensure_track
    rw [if_neg hmem, if_neg (not_le.mpr hlt)]

/-- C5 witness: with `TIMEOUT_BLOCKS = 1`, one non-silent sweep evicts a
fresh unseen track, and spawning at a frequency absent from the bank
creates the brand-new empty track record. -/
theorem c5_timeout_sweep_witness :
    dictGet (handle_timeouts cfg2 true bank2) 100 = none ∧
    ensure_track cfg2 ([] : Bank) 100 = (some 100, [] ++ [(100, mk_track 100)]) := by
  have h := c5_timeout_sweep cfg2 bank2 [] 0 100 (mk_track 100)
    (by simp [bank2]) (by simp [bank2, dictGet])
  refine ⟨(h.2.1 rfl).mpr (by norm_num [cfg2, cfg_default, mk_track]), ?_⟩
  exact (h.2.2.2 [] 100 (by simp) (by norm_num [cfg2, cfg_default])).1

/-- C5 counterexample: with `TIMEOUT_BLOCKS = 1`, a track that receives zero
matching peaks during exactly one processed block — here a block rejected by
the silence guard — is still in the bank afterwards, because the silent
early return skips the timeout sweep entirely. -/
theorem c5_counterexample :
    dictGet (process_block cfg2 bank2 [0, 0, 0, 0] 0).1 100 = some (mk_track 100) := by
  have hs : mean_sq [0, 0, 0, 0] < 1e-10 := by
    norm_num [mean_sq]
  unfold process_block
  rw [if_pos hs]
  simp [bank2, dictGet]

/-- C6 (amended): in a non-silent block's timeout sweep an unseen surviving
track gets the zero appended to its secondary `history` buffer (capacity
`HIST_LEN`), while its `instFreqHistory` (`finst_hist`) — the buffer the
trend correlation computer actually reads — is left unchanged. -/
theorem c6_zero_history (cfg : Config) (bank : Bank) (k : ℝ) (st : Track)
    (hnd : (bank.map Prod.fst).Nodup) (hget : dictGet bank k = some st)
    (hseen : st.seen = false) (hkeep : st.miss_count + 1 < cfg.TIMEOUT_BLOCKS) :
    dictGet (handle_timeouts cfg true bank) k =
      some { st with
        miss_count := st.miss_count + 1
        history := dequeAppend cfg.HIST_LEN st.history 0 } ∧
    rho_block bank = bank.filterMap (fun p => rho_of_hist p.2.finst_hist) := by
  refine ⟨?_, rfl⟩
  rw [dictGet_handle_timeouts cfg true bank k st hnd hget]
  simp [sweep_one, hseen, hkeep]

/-- C6 witness: a fresh unseen track under the default configuration. -/
theorem c6_zero_history_witness :
    dictGet (handle_timeouts cfg_default true bank2) 100 =
      some { mk_track 100 with
        miss_count := (mk_track 100).miss_count + 1
        history := dequeAppend cfg_default.HIST_LEN (mk_track 100).history 0 } ∧
    rho_block bank2 = bank2.filterMap (fun p => rho_of_hist p.2.finst_hist) :=
  c6_zero_history cfg_default bank2 100 (mk_track 100) (by simp [bank2])
    (by simp [bank2, dictGet]) rfl (by norm_num [cfg_default, mk_track])

/-- C6 counterexample: after the sweep the unseen track's `finst_hist` is
still empty — the zero was not appended to the history the correlation
computer reads; it landed in the unused secondary `history` buffer. -/
theorem c6_counterexample :
    ((dictGet (handle_timeouts cfg_default true bank2) 100).map Track.finst_hist) ≠
        some (dequeAppend cfg_default.SMOOTH (mk_track 100).finst_hist 0) ∧
      ((dictGet (handle_timeouts cfg_default true bank2) 100).map Track.history) =
        some [0] := by
  have hval : dictGet (handle_timeouts cfg_default true bank2) 100 =
      some { mk_track 100 with
        miss_count := 1
        history := dequeAppend cfg_default.HIST_LEN (mk_track 100).history 0 } := by
    rw [dictGet_handle_timeouts cfg_default true bank2 100 (mk_track 100)
      (by simp [bank2]) (by simp [bank2, dictGet])]
    simp [sweep_one, mk_track, cfg_default]
  rw [hval]
  constructor
  · simp [mk_track, dequeAppend, cfg_default]
  · simp [mk_track, dequeAppend, cfg_default]

lemma dictGet_some_mem : ∀ {bank : Bank} {k : ℝ} {st : Track},
    dictGet bank k = some st → (k, st) ∈ bank := by
  intro bank
  induction bank with
  | nil => intro k st h; cases h
  | cons p rest ih =>
    intro k st h
    by_cases hp : p.1 = k
    · have hst : p.2 = st := by simpa [dictGet, hp] using h
      have hpk : (k, st) = p := by rw [← hp, ← hst]
      rw [hpk]
      exact List.mem_cons_self _ _
    · exact List.mem_cons_of_mem _ (ih (by simpa [dictGet, hp] using h))

lemma dictGet_mem_keys {bank : Bank} {k : ℝ} {st : Track}
    (h : dictGet bank k = some st) : k ∈ bank.map Prod.fst :=
  List.mem_map.mpr ⟨(k, st), dictGet_some_mem h, rfl⟩

lemma mem_keys_dictGet : ∀ {bank : Bank} {k : ℝ}, k ∈ bank.map Prod.fst →
    ∃ st, dictGet bank k = some st := by
  intro bank
  induction bank with
  | nil => intro k h; simp at h
  | cons p rest ih =>
    intro k h
    rw [List.map_cons, List.mem_cons] at h
    by_cases hp : p.1 = k
    · exact ⟨p.2, by simp [dictGet, hp]⟩
    · rcases ih (h.resolve_left (fun hh => hp hh.symm)) with ⟨st, hst⟩
      exact ⟨st, by simpa [dictGet, hp] using hst⟩

lemma keys_dictInsert (bank : Bank) (k : ℝ) (v : Track) :
    (dictInsert bank k v).map Prod.fst =
      if k ∈ bank.map Prod.fst then bank.map Prod.fst else bank.map Prod.fst ++ [k] := by
  induction bank with
  | nil => simp [dictInsert]
  | cons p rest ih =>
    by_cases hp : p.1 = k
    · simp [dictInsert, hp]
    · have hk : (k ∈ p.1 :: rest.map Prod.fst) ↔ k ∈ rest.map Prod.fst := by
        simp only [List.mem_cons]
        exact or_iff_right (fun h => hp h.symm)
      simp only [dictInsert, if_neg hp, List.map_cons, hk, ih]
      by_cases hmem : k ∈ rest.map Prod.fst <;> simp [hmem]

lemma nodup_dictInsert {bank : Bank} (k : ℝ) (v : Track)
    (h : (bank.map Prod.fst).Nodup) : ((dictInsert bank k v).map Prod.fst).Nodup := by
  rw [keys_dictInsert]
  by_cases hmem : k ∈ bank.map Prod.fst
  · rwa [if_pos hmem]
  · rw [if_neg hmem]
    simp [List.nodup_append, h, hmem]

lemma length_dictInsert (bank : Bank) (k : ℝ) (v : Track) :
    (dictInsert bank k v).length =
      if k ∈ bank.map Prod.fst then bank.length else bank.length + 1 := by
  have h := keys_dictInsert bank k v
  have h1 : (dictInsert bank k v).length = ((dictInsert bank k v).map Prod.fst).length :=
    (List.length_map _ _).symm
  rw [h1, h]
  by_cases hmem : k ∈ bank.map Prod.fst <;> simp [hmem]

lemma mem_dictInsert : ∀ {bank : Bank} {k : ℝ} {v : Track} {p : ℝ × Track},
    p ∈ dictInsert bank k v → p = (k, v) ∨ p ∈ bank := by
  intro bank
  induction bank with
  | nil => intro k v p h; simpa [dictInsert] using h
  | cons q rest ih =>
    intro k v p h
    by_cases hq : q.1 = k
    · rcases List.mem_cons.mp (by simpa [dictInsert, hq] using h) with h1 | h1
      · exact Or.inl h1
      · exact Or.inr (List.mem_cons_of_mem _ h1)
    · rcases List.mem_cons.mp (by simpa [dictInsert, hq] using h) with h1 | h1
      · exact Or.inr (h1 ▸ List.mem_cons_self _ _)
      · rcases ih h1 with h2 | h2
        · exact Or.inl h2
        · exact Or.inr (List.mem_cons_of_mem _ h2)

lemma dictPop_sublist : ∀ (bank : Bank) (k : ℝ), List.Sublist (dictPop bank k) bank := by
  intro bank
  induction bank with
  | nil => intro k; simp [dictPop]
  | cons p rest ih =>
    intro k
    by_cases hp : p.1 = k
    · simpa [dictPop, hp] using (List.sublist_cons_self p rest)
    · simpa [dictPop, hp] using (ih k).cons₂ p

lemma length_dictPop_mem : ∀ {bank : Bank} {k : ℝ}, k ∈ bank.map Prod.fst →
    (dictPop bank k).length + 1 = bank.length := by
  intro bank
  induction bank with
  | nil => intro k h; simp at h
  | cons p rest ih =>
    intro k h
    rw [List.map_cons, List.mem_cons] at h
    by_cases hp : p.1 = k
    · simp [dictPop, hp]
    · have hmem : k ∈ rest.map Prod.fst := h.resolve_left (fun hh => hp hh.symm)
      simp [dictPop, hp, ih hmem]

lemma dictGet_append_fresh {bank : Bank} {k : ℝ} (v : Track)
    (h : k ∉ bank.map Prod.fst) : dictGet (bank ++ [(k, v)]) k = some v := by
  induction bank with
  | nil => simp [dictGet]
  | cons p rest ih =>
    rw [List.map_cons, List.mem_cons, not_or] at h
    simp only [List.cons_append, dictGet]
    rw [if_neg (fun hh => h.1 hh.symm)]
    exact ih h.2

lemma track_update_f0 (cfg : Config) (n0 : ℕ) (x : List ℝ) (st : Track) (f : ℝ) :
    (track_update cfg n0 x st f).f0 = 0.9 * st.f0 + 0.1 * f := rfl

lemma WF_dictInsert_matched (cfg : Config) (n0 : ℕ) (x : List ℝ) (bank : Bank)
    (m f : ℝ) (st : Track) (h : WFBank cfg bank) (hg : dictGet bank m = some st) :
    WFBank cfg (dictInsert (if m = f then bank else dictPop bank m)
      (0.9 * st.f0 + 0.1 * f) (track_update cfg n0 x st f)) := by
  obtain ⟨hnd, hf0, hlen⟩ := h
  have hmem : m ∈ bank.map Prod.fst := dictGet_mem_keys hg
  have hstf0 : st.f0 = m := hf0 (m, st) (dictGet_some_mem hg)
  by_cases hmf : m = f
  · rw [if_pos hmf]
    have hkey : 0.9 * st.f0 + 0.1 * f = m := by
      rw [hstf0, ← hmf]
      ring
    refine ⟨nodup_dictInsert _ _ hnd, ?_, ?_⟩
    · intro p hp
      rcases mem_dictInsert hp with hp1 | hp1
      · rw [hp1]
        exact track_update_f0 cfg n0 x st f
      · exact hf0 p hp1
    · rw [length_dictInsert, if_pos (hkey ▸ hmem)]
      exact hlen
  · rw [if_neg hmf]
    have hsub := dictPop_sublist bank m
    have hndp : ((dictPop bank m).map Prod.fst).Nodup := (hsub.map Prod.fst).nodup hnd
    refine ⟨nodup_dictInsert _ _ hndp, ?_, ?_⟩
    · intro p hp
      rcases mem_dictInsert hp with hp1 | hp1
      · rw [hp1]
        exact track_update_f0 cfg n0 x st f
      · exact hf0 p (hsub.mem hp1)
    · have hpop := length_dictPop_mem hmem
      rw [length_dictInsert]
      by_cases hkm : (0.9 * st.f0 + 0.1 * f) ∈ (dictPop bank m).map Prod.fst
      · rw [if_pos hkm]
        have := hsub.length_le
        omega
      · rw [if_neg hkm]
        omega

lemma match_fold_mono (f : ℝ) : ∀ (l : List (ℝ × Track)) (q0 : ℝ × ℝ),
    ∃ q, l.foldl (fun best p =>
        match best with
        | none => some (p.1, |p.1 - f|)
        | some q => if |p.1 - f| < q.2 then some (p.1, |p.1 - f|) else some q)
      (some q0) = some q ∧ q.2 ≤ q0.2 := by
  intro l
  induction l with
  | nil => intro q0; exact ⟨q0, rfl, le_refl _⟩
  | cons p rest ih =>
    intro q0
    simp only [List.foldl_cons]
    by_cases hc : |p.1 - f| < q0.2
    · rcases ih (p.1, |p.1 - f|) with ⟨q, hq, hle⟩
      rw [if_pos hc]
      exact ⟨q, hq, le_trans hle (le_of_lt hc)⟩
    · rcases ih q0 with ⟨q, hq, hle⟩
      rw [if_neg hc]
      exact ⟨q, hq, hle⟩

lemma match_fold_mem (f : ℝ) : ∀ (l : List (ℝ × Track)) (acc : Option (ℝ × ℝ)) (k : ℝ),
    k ∈ l.map Prod.fst →
    ∃ q, l.foldl (fun best p =>
        match best with
        | none => some (p.1, |p.1 - f|)
        | some q => if |p.1 - f| < q.2 then some (p.1, |p.1 - f|) else some q)
      acc = some q ∧ q.2 ≤ |k - f| := by
  intro l
  induction l with
  | nil => intro acc k h; simp at h
  | cons p rest ih =>
    intro acc k h
    rw [List.map_cons, List.mem_cons] at h
    cases acc with
    | none =>
      simp only [List.foldl_cons]
      rcases h with h1 | h1
      · subst h1
        exact match_fold_mono f rest (p.1, |p.1 - f|)
      · exact ih _ k h1
    | some q0 =>
      simp only [List.foldl_cons]
      by_cases hc : |p.1 - f| < q0.2
      · rw [if_pos hc]
        rcases h with h1 | h1
        · subst h1
          exact match_fold_mono f rest (p.1, |p.1 - f|)
        · exact ih _ k h1
      · rw [if_neg hc]
        rcases h with h1 | h1
        · subst h1
          rcases match_fold_mono f rest q0 with ⟨q, hq, hle⟩
          exact ⟨q, hq, le_trans hle (not_lt.mp hc)⟩
        · exact ih _ k h1

lemma match_track_none_not_mem {cfg : Config} {bank : Bank} {f : ℝ}
    (hT : 0 ≤ cfg.TOL) (h : match_track cfg bank f = none) :
    f ∉ bank.map Prod.fst := by
  intro hmem
  rcases match_fold_mem f bank none f hmem with ⟨q, hq, hle⟩
  unfold match_track at h
  rw [hq] at h
  dsimp only at h
  rw [if_pos (le_trans hle (by simpa using hT))] at h
  cases h

lemma process_peak_WF (cfg : Config) (n0 : ℕ) (x : List ℝ) (bank : Bank) (f : ℝ)
    (h : WFBank cfg bank) : WFBank cfg (process_peak cfg n0 x bank f) := by
  cases hm : match_track cfg bank f with
  | some m =>
    cases hg : dictGet bank m with
    | none =>
      simp only [process_peak, hm, hg]
      exact h
    | some st =>
      simp only [process_peak, hm, hg]
      exact WF_dictInsert_matched cfg n0 x bank m f st h hg
  | none =>
    by_cases hmem : f ∈ bank.map Prod.fst
    · have he : ensure_track cfg bank f = (some f, bank) := by
        unfold ensure_track
        rw [if_pos hmem]
      cases hg : dictGet bank f with
      | none =>
        simp only [process_peak, hm, he, hg]
        exact h
      | some st =>
        simp only [process_peak, hm, he, hg, if_true]
        have hres := WF_dictInsert_matched cfg n0 x bank f f st h hg
        rwa [if_pos rfl] at hres
    · by_cases hfull : cfg.MAX_TRACKS ≤ bank.length
      · have he : ensure_track cfg bank f = (none, bank) := by
          unfold ensure_track
          rw [if_neg hmem, if_pos hfull]
        simp only [process_peak, hm, he]
        exact h
      · have he : ensure_track cfg bank f = (some f, bank ++ [(f, mk_track f)]) := by
          unfold ensure_track
          rw [if_neg hmem, if_neg hfull]
        obtain ⟨hnd, hf0, hlen⟩ := h
        have hWF1 : WFBank cfg (bank ++ [(f, mk_track f)]) := by
          refine ⟨?_, ?_, ?_⟩
          · simp [List.nodup_append, hnd, hmem]
          · intro p hp
            rcases List.mem_append.mp hp with hp1 | hp1
            · exact hf0 p hp1
            · simp only [List.mem_singleton] at hp1
              rw [hp1]
              rfl
          · simp only [List.length_append, List.length_singleton]
            omega
        have hg : dictGet (bank ++ [(f, mk_track f)]) f = some (mk_track f) :=
          dictGet_append_fresh _ hmem
        simp only [process_peak, hm, he, hg, if_true]
        have hres := WF_dictInsert_matched cfg n0 x (bank ++ [(f, mk_track f)]) f f
          (mk_track f) hWF1 hg
        rwa [if_pos rfl] at hres

lemma foldl_process_peak_WF (cfg : Config) (n0 : ℕ) (x : List ℝ) :
    ∀ (peaks : List ℝ) (bank : Bank), WFBank cfg bank →
      WFBank cfg (peaks.foldl (process_peak cfg n0 x) bank) := by
  intro peaks
  induction peaks with
  | nil => intro bank h; exact h
  | cons f rest ih =>
    intro bank h
    exact ih _ (process_peak_WF cfg n0 x bank f h)

lemma reset_seen_WF (cfg : Config) (bank : Bank) (h : WFBank cfg bank) :
    WFBank cfg (reset_seen bank) := by
  obtain ⟨hnd, hf0, hlen⟩ := h
  refine ⟨?_, ?_, ?_⟩
  · have : (reset_seen bank).map Prod.fst = bank.map Prod.fst := by
      unfold reset_seen
      rw [List.map_map]
      exact List.map_congr_left (fun p _ => rfl)
    rwa [this]
  · intro p hp
    rcases List.mem_map.mp hp with ⟨q, hq, rfl⟩
    exact hf0 q hq
  · unfold reset_seen
    rw [List.length_map]
    exact hlen

lemma handle_timeouts_WF (cfg : Config) (su : Bool) (bank : Bank)
    (h : WFBank cfg bank) : WFBank cfg (handle_timeouts cfg su bank) := by
  obtain ⟨hnd, hf0, hlen⟩ := h
  have hsub : List.Sublist (handle_timeouts cfg su bank) (bank.map (sweep_one cfg su)) :=
    List.filter_sublist _
  have hkeys : (bank.map (sweep_one cfg su)).map Prod.fst = bank.map Prod.fst := by
    rw [List.map_map]
    exact List.map_congr_left (fun p _ => sweep_one_fst cfg su p)
  refine ⟨?_, ?_, ?_⟩
  · exact (hkeys ▸ (hsub.map Prod.fst)).nodup hnd
  · intro p hp
    rcases List.mem_map.mp (hsub.mem hp) with ⟨q, hq, rfl⟩
    rw [sweep_one_fst]
    have : (sweep_one cfg su q).2.f0 = q.2.f0 := by
      unfold sweep_one
      split <;> rfl
    rw [this]
    exact hf0 q hq
  · calc (handle_timeouts cfg su bank).length
        ≤ (bank.map (sweep_one cfg su)).length := hsub.length_le
      _ = bank.length := List.length_map _ _
      _ ≤ cfg.MAX_TRACKS := hlen

/-- C4: the bank never exceeds `MAX_TRACKS` live tracks.  Well-formedness
(distinct keys, key = center frequency, capacity bound) is preserved by a
whole block for any presented peak list, and a peak that matches no track
while the bank is full is dropped with no state change at all. -/
theorem c4_capacity_bound (cfg : Config) (bank : Bank) (peaks : List ℝ) (n0 : ℕ)
    (x : List ℝ) (f : ℝ) (hWF : WFBank cfg bank) (hT : 0 ≤ cfg.TOL) :
    WFBank cfg ([] : Bank) ∧
    WFBank cfg (process_block_with cfg bank peaks n0 x).1 ∧
    (process_block_with cfg bank peaks n0 x).1.length ≤ cfg.MAX_TRACKS ∧
    (cfg.MAX_TRACKS ≤ bank.length → match_track cfg bank f = none →
      process_peak cfg n0 x bank f = bank) := by
  have hWFout : WFBank cfg (process_block_with cfg bank peaks n0 x).1 := by
    unfold process_block_with
    exact handle_timeouts_WF cfg true _
      (foldl_process_peak_WF cfg n0 x peaks _ (reset_seen_WF cfg bank hWF))
  refine ⟨⟨List.nodup_nil, fun p hp => absurd hp (List.not_mem_nil p), Nat.zero_le _⟩,
    hWFout, hWFout.2.2, fun hfull hnone => ?_⟩
  have he : ensure_track cfg bank f = (none, bank) := by
    unfold ensure_track
    rw [if_neg (match_track_none_not_mem hT hnone), if_pos hfull]
  simp only [process_peak, hnone, he]

lemma dictGet_dictInsert_self : ∀ (bank : Bank) (k : ℝ) (v : Track),
    dictGet (dictInsert bank k v) k = some v := by
  intro bank
  induction bank with
  | nil => intro k v; simp [dictInsert, dictGet]
  | cons p rest ih =>
    intro k v
    by_cases hp : p.1 = k
    · simp [dictInsert, hp, dictGet]
    · simp only [dictInsert, if_neg hp, dictGet]
      exact ih k v

lemma process_peak_matched (cfg : Config) (n0 : ℕ) (x : List ℝ) (bank : Bank)
    (f m : ℝ) (st : Track) (hm : match_track cfg bank f = some m)
    (hg : dictGet bank m = some st) :
    process_peak cfg n0 x bank f =
      dictInsert (if m = f then bank else dictPop bank m) (0.9 * st.f0 + 0.1 * f)
        (track_update cfg n0 x st f) := by
  simp only [process_peak, hm, hg]

lemma conj_exp_neg_real_mul_I (a : ℝ) :
    (starRingEnd ℂ) (Complex.exp (-(a : ℂ) * Complex.I)) =
      Complex.exp ((a : ℂ) * Complex.I) := by
  rw [← Complex.exp_conj]
  congr 1
  simp [map_mul, map_neg, Complex.conj_ofReal, Complex.conj_I]

lemma arg_exp_real_mul_I (a : ℝ) (h : a ∈ Set.Ioc (-Real.pi) Real.pi) :
    (Complex.exp ((a : ℂ) * Complex.I)).arg = a := by
  rw [Complex.exp_mul_I]
  exact Complex.arg_cos_add_sin_mul_I h

lemma demod_phase_one_sample (fs f0 : ℝ) (n0 : ℕ)
    (h : osc_angle fs f0 n0 0 ∈ Set.Ioc (-Real.pi) Real.pi) :
    demod_phase fs f0 n0 [1] = osc_angle fs f0 n0 0 := by
  unfold demod_phase demod_z local_osc
  rw [show ([1] : List ℝ).length = 1 from rfl, Finset.sum_range_one]
  rw [show (([1] : List ℝ).getD 0 0 : ℝ) = 1 from rfl]
  rw [conj_exp_neg_real_mul_I]
  push_cast
  rw [mul_one]
  exact arg_exp_real_mul_I _ h

lemma match_track_cfg1_bank1 : match_track cfg1 bank1 4 = some 0 := by
  have hTOL : cfg1.TOL = 4 := by
    norm_num [Config.TOL, cfg1, cfg_default]
  have habs : |(0 : ℝ) - 4| ≤ cfg1.TOL := by
    rw [hTOL, abs_of_nonpos (by norm_num : (0 : ℝ) - 4 ≤ 0)]
    norm_num
  unfold match_track bank1
  simp only [List.foldl_cons, List.foldl_nil]
  rw [if_pos habs]

lemma dictGet_bank1 : dictGet bank1 0 = some (mk_track 0) := by
  simp [bank1, dictGet]

lemma c1_phase_post :
    demod_phase cfg1.FS (0.9 * (mk_track 0).f0 + 0.1 * 4) 1 [1] = Real.pi / 5 := by
  have hpi := Real.pi_pos
  have hf : (0.9 * (mk_track 0).f0 + 0.1 * 4 : ℝ) = 2 / 5 := by
    rw [show (mk_track 0).f0 = 0 from rfl]
    norm_num
  have hang : osc_angle cfg1.FS (2 / 5) 1 0 = Real.pi / 5 := by
    unfold osc_angle
    rw [show cfg1.FS = (4 : ℝ) from rfl]
    push_cast
    ring
  rw [hf, demod_phase_one_sample _ _ _ (by rw [hang]; constructor <;> linarith), hang]

lemma c1_phase_pre : demod_phase cfg1.FS (mk_track 0).f0 1 [1] = 0 := by
  have hpi := Real.pi_pos
  have hang : osc_angle cfg1.FS (mk_track 0).f0 1 0 = 0 := by
    unfold osc_angle
    rw [show (mk_track 0).f0 = 0 from rfl]
    ring
  rw [demod_phase_one_sample _ _ _ (by rw [hang]; constructor <;> linarith), hang]

/-- C1 (amended): for a matched track the per-peak update stores the track
under its post-EMA key and the phase it records is the one computed by the
demodulator at the *post-update* center frequency `0.9*f0 + 0.1*f` — the
EMA blend of line 105 happens before the oscillator of line 109 is built. -/
theorem c1_oscillator_post_ema (cfg : Config) (n0 : ℕ) (x : List ℝ) (bank : Bank)
    (f m : ℝ) (st : Track) (hm : match_track cfg bank f = some m)
    (hg : dictGet bank m = some st) :
    dictGet (process_peak cfg n0 x bank f) (0.9 * st.f0 + 0.1 * f) =
      some (track_update cfg n0 x st f) ∧
    (track_update cfg n0 x st f).prev_phase =
      some (demod_phase cfg.FS (0.9 * st.f0 + 0.1 * f) n0 x) := by
  refine ⟨?_, rfl⟩
  rw [process_peak_matched cfg n0 x bank f m st hm hg]
  exact dictGet_dictInsert_self _ _ _

/-- C1 witness: a track at 0 Hz matched by a peak at 4 Hz, one-sample block
starting at n0 = 1. -/
theorem c1_oscillator_post_ema_witness :
    dictGet (process_peak cfg1 1 [1] bank1 4) (0.9 * (mk_track 0).f0 + 0.1 * 4) =
      some (track_update cfg1 1 [1] (mk_track 0) 4) ∧
    (track_update cfg1 1 [1] (mk_track 0) 4).prev_phase =
      some (demod_phase cfg1.FS (0.9 * (mk_track 0).f0 + 0.1 * 4) 1 [1]) :=
  c1_oscillator_post_ema cfg1 1 [1] bank1 4 0 (mk_track 0)
    match_track_cfg1_bank1 dictGet_bank1

/-- C1 counterexample: the phase stored for the matched track is `pi/5`, the
demodulation at the post-EMA frequency 0.4 Hz, while demodulating at the
track's pre-update center frequency (0 Hz) would give phase 0 — so the
local oscillator is *not* built with the pre-update center frequency. -/
theorem c1_counterexample :
    (dictGet (process_peak cfg1 1 [1] bank1 4)
        (0.9 * (mk_track 0).f0 + 0.1 * 4)).map Track.prev_phase ≠
      some (some (demod_phase cfg1.FS (mk_track 0).f0 1 [1])) := by
  have hpi := Real.pi_pos
  rw [process_peak_matched cfg1 1 [1] bank1 4 0 (mk_track 0)
    match_track_cfg1_bank1 dictGet_bank1]
  rw [dictGet_dictInsert_self]
  rw [show ((some (track_update cfg1 1 [1] (mk_track 0) 4)).map Track.prev_phase) =
    some (some (demod_phase cfg1.FS (0.9 * (mk_track 0).f0 + 0.1 * 4) 1 [1])) from rfl]
  rw [c1_phase_post, c1_phase_pre]
  intro h
  have h2 : Real.pi / 5 = 0 := by
    simpa using h
  linarith

/-- C4 witness: a full single-slot bank drops an unmatched peak at 200 Hz
and a block presenting that peak keeps the bank within capacity. -/
theorem c4_capacity_bound_witness :
    WFBank cfg4 ([] : Bank) ∧
    WFBank cfg4 (process_block_with cfg4 bank2 [200] 0 [1]).1 ∧
    (process_block_with cfg4 bank2 [200] 0 [1]).1.length ≤ cfg4.MAX_TRACKS ∧
    (cfg4.MAX_TRACKS ≤ bank2.length → match_track cfg4 bank2 200 = none →
      process_peak cfg4 0 [1] bank2 200 = bank2) :=
  c4_capacity_bound cfg4 bank2 [200] 0 [1] 200
    (by
      refine ⟨by simp [bank2], ?_, by simp [bank2, cfg4, cfg_default]⟩
      intro p hp
      simp only [bank2, List.mem_singleton] at hp
      rw [hp]
      rfl)
    (by norm_num [cfg4, cfg_default, Config.TOL])

lemma list_sum_getD : ∀ (l : List ℝ),
    ∑ i ∈ Finset.range l.length, l.getD i 0 = l.sum := by
  intro l
  induction l with
  | nil => simp
  | cons a t ih =>
    rw [List.length_cons, Finset.sum_range_succ']
    simp only [List.getD_cons_succ, List.getD_cons_zero, List.sum_cons]
    rw [ih]
    ring

lemma rho_of_hist_eq_some {l : List ℝ} {r : ℝ} :
    rho_of_hist l = some r ↔ 3 ≤ l.length ∧ 1e-9 < pearson_denom l ∧
      r = pearson_num l / pearson_denom l := by
  unfold rho_of_hist pearson_num pearson_denom tau_bar mean
  by_cases h1 : 3 ≤ l.length
  · rw [if_pos h1]
    dsimp only
    rw [list_sum_getD]
    by_cases h2 : (1e-9 : ℝ) < Real.sqrt
        ((∑ i ∈ Finset.range l.length,
            (l.getD i 0 - l.sum / (l.length : ℝ)) ^ 2) *
          (∑ i ∈ Finset.range l.length,
            ((i : ℝ) - (∑ i ∈ Finset.range l.length, (i : ℝ)) / (l.length : ℝ)) ^ 2))
    · rw [if_pos h2]
      simp only [Option.some.injEq]
      constructor
      · intro h
        exact ⟨h1, h2, h.symm⟩
      · intro h
        exact h.2.2.symm
    · rw [if_neg h2]
      simp only [false_iff, reduceCtorEq]
      intro h
      exact h2 h.2.1
  · rw [if_neg h1]
    simp only [false_iff, reduceCtorEq]
    intro h
    exact h1 h.1

lemma rho_block_mem {bank : Bank} {r : ℝ} :
    r ∈ rho_block bank ↔ ∃ p ∈ bank, rho_of_hist p.2.finst_hist = some r := by
  unfold rho_block
  exact List.mem_filterMap

lemma process_file_eq_aggregate (cfg : Config) (b0 : Bank) (audio : List ℝ) :
    (process_file cfg b0 audio).1 = aggregate_file (block_values cfg audio) := by
  unfold process_file aggregate_file block_values
  rcases h : ((schedule cfg audio.length).foldl (file_step cfg audio) ([], [])).2 with _ | ⟨a, t⟩
  · simp [h]
  · simp [h]

/-- C8: the per-file scalar is the mean of the absolute values of the
collected block values (`0.0` when no block qualified), and a value enters a
block's correlation list exactly for a track whose instantaneous-frequency
history has length at least 3 and Pearson denominator above `1e-9`, the
value being the Pearson coefficient of that history against its index
sequence. -/
theorem c8_rho_aggregation (cfg : Config) (b0 : Bank) (audio : List ℝ)
    (bank : Bank) (r : ℝ) :
    (process_file cfg b0 audio).1 = aggregate_file (block_values cfg audio) ∧
    (r ∈ rho_block bank ↔ ∃ p ∈ bank, 3 ≤ p.2.finst_hist.length ∧
      1e-9 < pearson_denom p.2.finst_hist ∧
      r = pearson_num p.2.finst_hist / pearson_denom p.2.finst_hist) := by
  refine ⟨process_file_eq_aggregate cfg b0 audio, ?_⟩
  rw [rho_block_mem]
  constructor
  · rintro ⟨p, hp, hr⟩
    exact ⟨p, hp, rho_of_hist_eq_some.mp hr⟩
  · rintro ⟨p, hp, h1, h2, h3⟩
    exact ⟨p, hp, rho_of_hist_eq_some.mpr ⟨h1, h2, h3⟩⟩

lemma abs_pearson_num_le (l : List ℝ) : |pearson_num l| ≤ pearson_denom l := by
  unfold pearson_num pearson_denom
  have hcs := Finset.sum_mul_sq_le_sq_mul_sq (Finset.range l.length)
    (fun i => l.getD i 0 - mean l) (fun i => (i : ℝ) - tau_bar l.length)
  calc |∑ i ∈ Finset.range l.length, (l.getD i 0 - mean l) * ((i : ℝ) - tau_bar l.length)|
      = Real.sqrt ((∑ i ∈ Finset.range l.length,
          (l.getD i 0 - mean l) * ((i : ℝ) - tau_bar l.length)) ^ 2) :=
        (Real.sqrt_sq_eq_abs _).symm
    _ ≤ Real.sqrt ((∑ i ∈ Finset.range l.length, (l.getD i 0 - mean l) ^ 2) *
          ∑ i ∈ Finset.range l.length, ((i : ℝ) - tau_bar l.length) ^ 2) :=
        Real.sqrt_le_sqrt hcs

lemma rho_of_hist_abs_le {l : List ℝ} {r : ℝ} (h : rho_of_hist l = some r) :
    |r| ≤ 1 := by
  rcases rho_of_hist_eq_some.mp h with ⟨_, h2, h3⟩
  have hd : 0 < pearson_denom l := lt_trans (by norm_num) h2
  rw [h3, abs_div, abs_of_pos hd, div_le_one hd]
  exact abs_pearson_num_le l

lemma rho_block_bounded {bank : Bank} {v : ℝ} (hv : v ∈ rho_block bank) : |v| ≤ 1 := by
  rcases List.mem_filterMap.mp hv with ⟨p, _, hp⟩
  exact rho_of_hist_abs_le hp

lemma process_block_snd_bounded (cfg : Config) (bank : Bank) (x : List ℝ) (n0 : ℕ) :
    ∀ v ∈ (process_block cfg bank x n0).2, |v| ≤ 1 := by
  intro v hv
  unfold process_block at hv
  split at hv
  · simp at hv
  · exact rho_block_bounded hv

lemma list_abs_sum_le_length (l : List ℝ) (hb : ∀ v ∈ l, |v| ≤ 1) :
    |l.sum| ≤ (l.length : ℝ) := by
  induction l with
  | nil => simp
  | cons a t ih =>
    rw [List.sum_cons, List.length_cons]
    have ha := hb a (List.mem_cons_self a t)
    have ht := ih (fun v hv => hb v (List.mem_cons_of_mem a hv))
    calc |a + t.sum| ≤ |a| + |t.sum| := abs_add _ _
      _ ≤ 1 + (t.length : ℝ) := add_le_add ha ht
      _ = ((t.length + 1 : ℕ) : ℝ) := by push_cast; ring

lemma abs_mean_le {l : List ℝ} (hne : l ≠ []) (hb : ∀ v ∈ l, |v| ≤ 1) :
    |mean l| ≤ 1 := by
  have hlen : (0 : ℝ) < (l.length : ℝ) := by
    have := List.length_pos.mpr hne
    exact_mod_cast this
  unfold mean
  rw [abs_div, abs_of_pos hlen, div_le_one hlen]
  exact list_abs_sum_le_length l hb

lemma file_fold_bounded (cfg : Config) (audio : List ℝ) :
    ∀ (sched : List (ℕ × ℕ)) (acc : Bank × List ℝ), (∀ v ∈ acc.2, |v| ≤ 1) →
      ∀ v ∈ (sched.foldl (file_step cfg audio) acc).2, |v| ≤ 1 := by
  intro sched
  induction sched with
  | nil => intro acc hacc; exact hacc
  | cons p rest ih =>
    intro acc hacc
    rw [List.foldl_cons]
    refine ih _ ?_
    unfold file_step
    dsimp only
    rcases he : (process_block cfg acc.1 ((audio.drop p.1).take cfg.BLOCK) p.2).2.isEmpty
      with _ | _
    · rw [if_neg Bool.false_ne_true]
      intro v hv
      rcases List.mem_append.mp hv with hv1 | hv1
      · exact hacc v hv1
      · rw [List.mem_singleton] at hv1
        subst hv1
        exact abs_mean_le (List.isEmpty_eq_false.mp he)
          (process_block_snd_bounded cfg acc.1 _ p.2)
    · rw [if_pos rfl]
      exact hacc

lemma list_sum_le_length (l : List ℝ) (hb : ∀ v ∈ l, v ≤ 1) :
    l.sum ≤ (l.length : ℝ) := by
  induction l with
  | nil => simp
  | cons a t ih =>
    rw [List.sum_cons, List.length_cons]
    have ha := hb a (List.mem_cons_self a t)
    have ht := ih (fun v hv => hb v (List.mem_cons_of_mem a hv))
    push_cast
    linarith

lemma list_sum_nonneg (l : List ℝ) (hb : ∀ v ∈ l, 0 ≤ v) : 0 ≤ l.sum := by
  induction l with
  | nil => simp
  | cons a t ih =>
    rw [List.sum_cons]
    have ha := hb a (List.mem_cons_self a t)
    have ht := ih (fun v hv => hb v (List.mem_cons_of_mem a hv))
    linarith

/-- C10: the reported per-file scalar always lies in `[0, 1]`: every
qualifying track contributes a Pearson coefficient of absolute value at most
1 (Cauchy-Schwarz), block values are means of such coefficients, and the
file result is the mean of their absolute values, or `0.0` when no block
qualified. -/
theorem c10_result_bounds (cfg : Config) (b0 : Bank) (audio : List ℝ) :
    0 ≤ (process_file cfg b0 audio).1 ∧ (process_file cfg b0 audio).1 ≤ 1 := by
  rw [process_file_eq_aggregate cfg b0 audio]
  have hbv : ∀ v ∈ block_values cfg audio, |v| ≤ 1 :=
    file_fold_bounded cfg audio _ _ (by intro v hv; simp at hv)
  unfold aggregate_file
  by_cases hnil : block_values cfg audio = []
  · rw [if_pos hnil]
    norm_num
  · rw [if_neg hnil]
    have hmem : ∀ w ∈ (block_values cfg audio).map (fun v => |v|), 0 ≤ w ∧ w ≤ 1 := by
      intro w hw
      rcases List.mem_map.mp hw with ⟨v, hv, rfl⟩
      exact ⟨abs_nonneg v, hbv v hv⟩
    have hne : (block_values cfg audio).map (fun v => |v|) ≠ [] := by
      simpa using hnil
    have hlen : (0 : ℝ) < (((block_values cfg audio).map (fun v => |v|)).length : ℝ) := by
      have := List.length_pos.mpr hne
      exact_mod_cast this
    constructor
    · unfold mean
      exact div_nonneg (list_sum_nonneg _ (fun v hv => (hmem v hv).1)) (le_of_lt hlen)
    · unfold mean
      rw [div_le_one hlen]
      exact list_sum_le_length _ (fun v hv => (hmem v hv).2)

end

end SignalAnalyzer
